import Mathlib

/-
Verification of libtracy.c (function call tracing library).

The embedding models, over List Char strings and Nat machine integers
(with explicit reduction modulo 2^32 where the C uses unsigned
arithmetic), the following parts of src/libtracy.c:

  - hash_path / match_words / mkwords   (fgrep-style word-list matcher)
  - find_end_of_glob / match_glob / match_eglob (extended glob matcher)
  - getsym                              (nearest-symbol lookup)
  - print_trace, __cyg_profile_func_enter, __cyg_profile_func_exit
                                        (trace emission and depth counter)
  - the TRACY_MAXDEPTH configuration parsing and tracy_init

Side effects are modelled by value: print_trace returns, besides its C
return value (Bool: 1 = admitted, 0 = suppressed-by-filter), the depth
number printed on the emitted line, if any (Option Nat); line text,
timestamps, the async backlog file contents and the DSO cache are not
claims' subject and are not modelled.  The result of backtrace() and of
addr2name() at a hook invocation are inputs of the model (an Event),
since they depend on the process state; on ARM builds bt_ok is always
true (backtrace is not consulted).
-/

namespace Tracy

/-- 2^32, the modulus of the C unsigned int arithmetic. -/
def M32 : Nat := 4294967296

/-- One step of the additive hash: hash += (unsigned)*path, on unsigned int. -/
def addChar (h : Nat) (c : Char) : Nat := (h + c.toNat) % M32

/-- struct word_st: precalculated hash and length, and word, the pointer
into the underlying string (modelled as the suffix it points to). -/
structure Word where
  hash : Nat
  length : Nat
  word : List Char
deriving DecidableEq

/-- Loop body of hash_path: fills the word so that it relates to the last
component of path.  The accumulator w carries hash, length and word of
the path component being read. -/
def hash_path_aux : List Char → Word → Word
  | [], w => w
  | c :: rest, w =>
    if c = '/' then hash_path_aux rest ⟨0, 0, rest⟩
    else hash_path_aux rest ⟨addChar w.hash c, w.length + 1, w.word⟩

/-- hash_path of libtracy.c. -/
def hash_path (path : List Char) : Word := hash_path_aux path ⟨0, 0, path⟩

/-- The do-while loop of match_words: walk the list; an entry matches when
hash, length and the memcmp of length bytes all agree; return the
basename pointer iword.word on a hit. -/
def match_words_loop (iw : Word) : List Word → Option (List Char)
  | [] => none
  | w :: rest =>
    if iw.hash ≠ w.hash then match_words_loop iw rest
    else if iw.length ≠ w.length then match_words_loop iw rest
    else if iw.word.take iw.length ≠ w.word.take iw.length then match_words_loop iw rest
    else some iw.word

/-- match_words of libtracy.c: NULL words (empty list) matches nothing. -/
def match_words (words : List Word) (path : List Char) : Option (List Char) :=
  match words with
  | [] => none
  | w :: ws => match_words_loop (hash_path path) (w :: ws)

/-- The do-while loop of mkwords: accumulate the current word; at a colon
terminate it and start a new word at the rest of the string. -/
def mkwords_aux : List Char → Word → List Word
  | [], w => [w]
  | c :: rest, w =>
    if c = ':' then w :: mkwords_aux rest ⟨0, 0, rest⟩
    else mkwords_aux rest ⟨addChar w.hash c, w.length + 1, w.word⟩

/-- mkwords of libtracy.c, with every malloc succeeding: the empty string
yields the NULL list (modelled as []). -/
def mkwords (str : List Char) : List Word :=
  if str = [] then [] else mkwords_aux str ⟨0, 0, str⟩

/-- mkwords loop with an allocation budget: the Nat argument is the number
of further mallocs that will succeed.  On a failed malloc the C LOGITs
and breaks out of the loop, returning the list built so far. -/
def mkwords_auxA : Nat → List Char → Word → List Word
  | _, [], w => [w]
  | b, c :: rest, w =>
    if c = ':' then
      match b with
      | 0 => [w]
      | Nat.succ b2 => w :: mkwords_auxA b2 rest ⟨0, 0, rest⟩
    else mkwords_auxA b rest ⟨addChar w.hash c, w.length + 1, w.word⟩

/-- mkwords of libtracy.c with an allocation budget (total number of
mallocs that succeed).  If the very first malloc fails, mkwords LOGITs
and returns NULL. -/
def mkwordsA (budget : Nat) (str : List Char) : List Word :=
  if str = [] then []
  else
    match budget with
    | 0 => []
    | Nat.succ b => mkwords_auxA b str ⟨0, 0, str⟩

/-- Spec-side helper: the last '/'-separated component, carrying the
component read so far.  lastSeg pre x is the substring after the last
'/' of x, or pre ++ x if x has none. -/
def lastSeg : List Char → List Char → List Char
  | pre, [] => pre
  | pre, c :: rest => if c = '/' then lastSeg [] rest else lastSeg (pre ++ [c]) rest

/-- Spec-side: the basename of a path, the substring after the last '/',
or the whole string when it has no '/'. -/
def basename (x : List Char) : List Char := lastSeg [] x

/-- Spec-side: the colon-separated segments of a string. -/
def splitSegs : List Char → List (List Char)
  | [] => [[]]
  | c :: rest =>
    if c = ':' then [] :: splitSegs rest
    else (splitSegs rest).modifyHead (fun s => c :: s)

/-- Spec-side: additive hash of a whole string. -/
def hashOf (l : List Char) : Nat := l.foldl addChar 0

/-- Spec-side: the colon-separated segments of pre ++ rest (the first
segment continuing pre), truncated after b further segment starts. -/
def segsA : Nat → List Char → List Char → List (List Char)
  | _, pre, [] => [pre]
  | b, pre, c :: rest =>
    if c = ':' then
      match b with
      | 0 => [pre]
      | Nat.succ b2 => pre :: segsA b2 [] rest
    else segsA b (pre ++ [c]) rest

/-- Spec-side: the colon-separated segments of pre ++ rest, the first
segment continuing pre, untruncated. -/
def segsFull (pre rest : List Char) : List (List Char) :=
  match splitSegs rest with
  | [] => [pre]
  | s :: ss => (pre ++ s) :: ss

/-- Loop of find_end_of_glob with its depth counter: find the first
occurrence of c at grouping depth 0 and return the position after it. -/
def feog : List Char → Char → Nat → Option (List Char)
  | [], _, _ => none
  | x :: xs, c, d =>
    if d = 0 ∧ x = c then some xs
    else if x = '(' then feog xs c (d + 1)
    else if x = ')' then (if 0 < d then feog xs c (d - 1) else none)
    else feog xs c d

/-- find_end_of_glob of libtracy.c. -/
def find_end_of_glob (s : List Char) (c : Char) : Option (List Char) :=
  feog s c 0

mutual

/-- match_glob of libtracy.c: glob matching without top-level
alternation. -/
def match_glob : List Char → List Char → Bool
  | [], s => s.isEmpty
  | x :: p, s =>
    if x = '(' then match_eglob p s
    else if x = ')' then match_glob p s
    else if x = ':' then match_glob_jump (x :: p) s
    else if x = '*' then match_glob_star p s
    else if x = '?' then match_glob_one p s
    else match_glob_lit x p s
termination_by p s => 3 * p.length + s.length + 2
decreasing_by
  all_goals try simp only [List.length_cons] at *
  all_goals omega

/-- The '?' case of the match_glob switch: fail at end of string,
otherwise consume one character. -/
def match_glob_one : List Char → List Char → Bool
  | _, [] => false
  | p, _ :: s2 => match_glob p s2
termination_by p s => 3 * p.length + s.length + 4
decreasing_by
  all_goals try simp only [List.length_cons] at *
  all_goals omega

/-- The default case of the match_glob switch: require the literal
pattern character (failing at end of string, since the string's NUL
does not equal it). -/
def match_glob_lit : Char → List Char → List Char → Bool
  | _, _, [] => false
  | x, p, y :: s2 => if y = x then match_glob p s2 else false
termination_by x p s => 3 * p.length + s.length + 4
decreasing_by
  all_goals try simp only [List.length_cons] at *
  all_goals omega

/-- The ':' case of the match_glob switch: an alternative matched, so
continue right after the enclosing group's ')'; when there is none the C
falls through to the end-of-pattern case, returning !*str. -/
def match_glob_jump : List Char → List Char → Bool
  | p, s =>
    match h : find_end_of_glob p ')' with
    | some p2 => match_glob p2 s
    | none => s.isEmpty
termination_by p s => 3 * p.length + s.length + 1
decreasing_by
  all_goals
    have key : ∀ (l : List Char) (c : Char) (d : Nat) (r : List Char),
        feog l c d = some r → r.length < l.length := by
      intro l c
      induction l with
      | nil => intro d r hr; simp [feog] at hr
      | cons a as ihl =>
        intro d r hr
        simp only [feog] at hr
        split at hr
        · cases hr; simp
        · split at hr
          · exact Nat.lt_trans (ihl _ _ hr) (by simp)
          · split at hr
            · split at hr
              · exact Nat.lt_trans (ihl _ _ hr) (by simp)
              · cases hr
            · exact Nat.lt_trans (ihl _ _ hr) (by simp)
  all_goals simp only [find_end_of_glob] at h
  all_goals have hk := key _ _ _ _ h
  all_goals omega

/-- The do-while loop of the '*' case of match_glob: try to ignore more
and more characters of the string until it runs out. -/
def match_glob_star : List Char → List Char → Bool
  | p, s =>
    match_glob p s ||
      match s with
      | [] => false
      | _ :: s2 => match_glob_star p s2
termination_by p s => 3 * p.length + s.length + 3
decreasing_by
  all_goals try simp only [List.length_cons] at *
  all_goals omega

/-- match_eglob of libtracy.c: try each top-level alternative in turn. -/
def match_eglob : List Char → List Char → Bool
  | p, s => match_glob p s || match_eglob_alt p s
termination_by p s => 3 * p.length + s.length + 4
decreasing_by
  all_goals omega

/-- The while part of match_eglob: move to the next top-level alternative
of the pattern, if any, and try again. -/
def match_eglob_alt : List Char → List Char → Bool
  | p, s =>
    match h : find_end_of_glob p ':' with
    | some p2 => match_eglob p2 s
    | none => false
termination_by p s => 3 * p.length + s.length + 3
decreasing_by
  all_goals
    have key : ∀ (l : List Char) (c : Char) (d : Nat) (r : List Char),
        feog l c d = some r → r.length < l.length := by
      intro l c
      induction l with
      | nil => intro d r hr; simp [feog] at hr
      | cons a as ihl =>
        intro d r hr
        simp only [feog] at hr
        split at hr
        · cases hr; simp
        · split at hr
          · exact Nat.lt_trans (ihl _ _ hr) (by simp)
          · split at hr
            · split at hr
              · exact Nat.lt_trans (ihl _ _ hr) (by simp)
              · cases hr
            · exact Nat.lt_trans (ihl _ _ hr) (by simp)
  all_goals simp only [find_end_of_glob] at h
  all_goals have hk := key _ _ _ _ h
  all_goals omega

end

/-- Elf32_Sym, with the two fields getsym reads: st_value and st_name
(the offset of the name in the string table). -/
structure Sym where
  st_value : Nat
  st_name : Nat
deriving DecidableEq

/-- struct dso_st: the string table modelled as its byte contents (strend
is its end, i.e. strtab.length), the symbol table as the list of its
entries (symend is its end). -/
structure Dso where
  strtab : List Char
  symtab : List Sym
deriving DecidableEq

/-- Unsigned 32-bit subtraction, as when the C assigns a pointer
difference to an Elf32_Addr. -/
def sub32 (a b : Nat) : Nat := (a + M32 - b % M32) % M32

/-- The comparison address of getsym: eddr = sym->st_value > base ?
addr : addr - base (symbol tables of libraries hold offsets relative to
the load base, the executable's holds absolute addresses). -/
def eddrOf (base addr : Nat) (sym : Sym) : Nat :=
  if base < sym.st_value then addr else sub32 addr base

/-- The for loop of getsym: diff and closest are the running state (the
C locals eddr and now are written out as eddrOf base addr sym and
eddrOf base addr sym - sym.st_value); on a zero gap the C breaks out of
the loop with closest = sym. -/
def getsymLoop (strtab : List Char) (base addr : Nat) :
    List Sym → Nat → Option Sym → Option Sym
  | [], _, closest => closest
  | sym :: rest, diff, closest =>
    if eddrOf base addr sym < sym.st_value then
      getsymLoop strtab base addr rest diff closest
    else if closest = none ∨ eddrOf base addr sym - sym.st_value < diff then
      if strtab.length ≤ sym.st_name then
        getsymLoop strtab base addr rest diff closest
      else if strtab.get? sym.st_name = some '$' then
        getsymLoop strtab base addr rest diff closest
      else if eddrOf base addr sym - sym.st_value = 0 then some sym
      else getsymLoop strtab base addr rest
        (eddrOf base addr sym - sym.st_value) (some sym)
    else getsymLoop strtab base addr rest diff closest

/-- The NUL-terminated string at a given offset of a string table. -/
def nameAt (strtab : List Char) (off : Nat) : List Char :=
  (strtab.drop off).takeWhile (fun c => c ≠ Char.ofNat 0)

/-- getsym of libtracy.c: find the name of the function defined closest
below addr, with the final name < strend sanity recheck of the C. -/
def getsym (dso : Dso) (base addr : Nat) : Option (List Char) :=
  match getsymLoop dso.strtab base addr dso.symtab 0 none with
  | none => none
  | some closest =>
    if closest.st_name < dso.strtab.length then
      some (nameAt dso.strtab closest.st_name)
    else none

/-- Spec-side: a symbol qualifies when its value is at most its
comparison address, its name offset lies inside the string table and its
name does not begin with a dollar sign. -/
def qualifies (strtab : List Char) (base addr : Nat) (sym : Sym) : Bool :=
  decide (sym.st_value ≤ eddrOf base addr sym) &&
  decide (sym.st_name < strtab.length) &&
  decide (strtab.get? sym.st_name ≠ some '$')

/-- Spec-side: the gap between the comparison address and the symbol
value. -/
def symGap (base addr : Nat) (sym : Sym) : Nat :=
  eddrOf base addr sym - sym.st_value

/-- Spec-side: compare a qualifying symbol against the best of the rest
of the table: the strictly smaller gap wins, ties go to the earlier
entry (the symbol at hand). -/
def pickBetter (base addr : Nat) (sym : Sym) : Option Sym → Option Sym
  | none => some sym
  | some t =>
    if symGap base addr t < symGap base addr sym then some t else some sym

/-- Spec-side: among the qualifying symbols of the table, the earliest
one attaining the smallest gap (ties go to the earlier entry), if any. -/
def pickSpec (strtab : List Char) (base addr : Nat) : List Sym → Option Sym
  | [] => none
  | sym :: rest =>
    if qualifies strtab base addr sym then
      pickBetter base addr sym (pickSpec strtab base addr rest)
    else pickSpec strtab base addr rest

/-- Spec-side: the result of the getsym loop seeded with candidate c at
gap diff, given the optimum of the rest of the table: a strictly
smaller gap beats the seed. -/
def stepBest (base addr diff : Nat) (c : Sym) : Option Sym → Option Sym
  | none => some c
  | some t => if symGap base addr t < diff then some t else some c

/-- The digit-consuming loop of atoi. -/
def atoiDigits : List Char → Nat → Nat
  | [], acc => acc
  | c :: rest, acc =>
    if c.isDigit then atoiDigits rest (10 * acc + (c.toNat - 48)) else acc

/-- The characters accepted by isspace in the C locale. -/
def isSpaceC (c : Char) : Bool :=
  c = ' ' || c = '\t' || c = '\n' || c = '\x0b' || c = '\x0c' || c = '\r'

/-- atoi of the C library: optional whitespace, optional sign, leading
digits; anything else (and the empty string) parses as 0.  Overflow of
the C int (undefined behaviour) is not modelled: values stay exact. -/
def atoiInt (s : List Char) : Int :=
  match s.dropWhile isSpaceC with
  | '-' :: rest => - (atoiDigits rest 0 : Int)
  | '+' :: rest => (atoiDigits rest 0 : Int)
  | rest => (atoiDigits rest 0 : Int)

/-- The outcome of addr2name for an event: suppressed by the library or
function filter (return -1), resolved to a name (return 1), or resolved
only to a DSO without a name (return 0). -/
inductive Resolve where
  | filtered
  | named
  | unnamed
deriving DecidableEq

/-- The per-invocation inputs of print_trace that come from the process
state: whether backtrace returned at least 3 frames (on ARM builds
backtrace is not consulted, so bt_ok is always true there), and what
addr2name answered. -/
structure Event where
  bt_ok : Bool
  resolve : Resolve
deriving DecidableEq

/-- The configuration statics print_trace reads from the environment on
first use: TRACY_MAXDEPTH (depth_limited, depth_limit — an unsigned
int), whether async mode is on with a working backlog file (Async_fd >=
0), and TRACY_LOG_ENTRIES_ONLY. -/
structure Config where
  depth_limited : Bool
  depth_limit : Nat
  async : Bool
  entries_only : Bool
deriving DecidableEq

/-- Unsigned 32-bit increment, as Callstack_depth++. -/
def inc32 (d : Nat) : Nat := (d + 1) % M32

/-- Unsigned 32-bit decrement, as Callstack_depth--. -/
def dec32 (d : Nat) : Nat := (d + (M32 - 1)) % M32

/-- print_trace of libtracy.c, given the current Callstack_depth.  The
first component is the C return value (true = 1, admitted; false = 0,
suppressed by filter, not counted in Callstack_depth); the second is the
depth number printed on the emitted line, if a line was emitted.  The
checks come in the order of the C: depth limit, backtrace, the async
path (which never consults the filters), filters via addr2name, and only
then the entries-only LEAVE check. -/
def print_trace (cfg : Config) (depth : Nat) (is_entry : Bool) (ev : Event) :
    Bool × Option Nat :=
  if cfg.depth_limited = true ∧ cfg.depth_limit ≤ depth then (true, none)
  else if ev.bt_ok = false then (true, none)
  else if cfg.async = true then
    (true, if cfg.entries_only = false ∨ is_entry = true then some depth else none)
  else if ev.resolve = Resolve.filtered then (false, none)
  else if cfg.entries_only = true ∧ is_entry = false then (true, none)
  else (true, some depth)

/-- Hook invoked on function entry: when tracing, print and increment
the depth counter iff print_trace admitted the event. -/
def __cyg_profile_func_enter (cfg : Config) (tracing : Bool) (depth : Nat)
    (ev : Event) : Nat × Option Nat :=
  if tracing = false then (depth, none)
  else
    let r := print_trace cfg depth true ev
    (if r.1 = true then inc32 depth else depth, r.2)

/-- Hook invoked on function exit: when tracing, decrement the depth
counter first, print, and undo the decrement iff print_trace returned
suppressed-by-filter. -/
def __cyg_profile_func_exit (cfg : Config) (tracing : Bool) (depth : Nat)
    (ev : Event) : Nat × Option Nat :=
  if tracing = false then (depth, none)
  else
    let d2 := dec32 depth
    let r := print_trace cfg d2 false ev
    (if r.1 = true then d2 else inc32 d2, r.2)

/-- A well-nested run of hook invocations, with per-frame events shared
between a frame's ENTER and its LEAVE (the same function meets the same
filters, and backtrace behaves the same at both hooks): finish is the
empty run, node ev inner rest is ENTER ev, the run inner, LEAVE ev,
then the run rest. -/
inductive Trace where
  | finish
  | node (ev : Event) (inner rest : Trace)
deriving DecidableEq

/-- Drive a well-nested run into the hooks (tracing enabled): returns
the final Callstack_depth and the depth numbers printed on the emitted
lines, in order. -/
def runT (cfg : Config) (d : Nat) : Trace → Nat × List Nat
  | .finish => (d, [])
  | .node ev inner rest =>
    let r1 := __cyg_profile_func_enter cfg true d ev
    let r2 := runT cfg r1.1 inner
    let r3 := __cyg_profile_func_exit cfg true r2.1 ev
    let r4 := runT cfg r3.1 rest
    (r4.1, r1.2.toList ++ r2.2 ++ r3.2.toList ++ r4.2)

/-- Nesting depth of a well-nested run. -/
def heightT : Trace → Nat
  | .finish => 0
  | .node _ inner rest => max (heightT inner + 1) (heightT rest)

/-- Spec-side: the expected depth annotations of a run, computed from
the number a of admitted-and-not-yet-left enclosing frames alone: a
frame's ENTER line and LEAVE line (emitted per print_trace at that
count) must both show a, and the frame adds one admitted frame around
its children iff its ENTER was admitted. -/
def specT (cfg : Config) (a : Nat) : Trace → List Nat
  | .finish => []
  | .node ev inner rest =>
    let r := print_trace cfg a true ev
    let a2 := if r.1 = true then a + 1 else a
    r.2.toList ++ specT cfg a2 inner ++
      (if r.1 = true then (print_trace cfg a false ev).2.toList else []) ++
      specT cfg a rest

/-- Reading of TRACY_MAXDEPTH by print_trace: a set, non-empty value is
parsed with atoi and assigned to the unsigned depth_limit (reduction
modulo 2^32), and depth limiting is enabled; otherwise it is not. -/
def maxdepth_config (env : Option (List Char)) : Bool × Nat :=
  match env with
  | none => (false, 0)
  | some s =>
    if s = [] then (false, 0)
    else (true, (atoiInt s % (M32 : Int)).toNat)

/-- The print_trace configuration determined by a TRACY_MAXDEPTH value
together with the async and entries-only switches. -/
def configOfMax (env : Option (List Char)) (async entries_only : Bool) : Config :=
  ⟨(maxdepth_config env).1, (maxdepth_config env).2, async, entries_only⟩

/-- Signal number of SIGPROF on Linux. -/
def SIGPROF : Int := 27

/-- The process state tracy_init leaves behind: the Tracing flag, the
signal number passed to signal() if it was called, and whether the
could-not-understand diagnostic was printed. -/
structure InitState where
  Tracing : Bool
  installed : Option Int
  diagnosed : Bool
deriving DecidableEq

/-- tracy_init of libtracy.c, as a function of getenv("TRACY_SIGNAL"):
with the variable unset nothing happens (Tracing keeps its initial value
1); with it set, a value starting with y or Y selects SIGPROF, any
other value is parsed with atoi (with a diagnostic if the result is not
positive); in all set cases signal() is then called on the chosen
number and Tracing is cleared. -/
def tracy_init (env : Option (List Char)) : InitState :=
  match env with
  | none => ⟨true, none, false⟩
  | some s =>
    if s.head? = some 'y' ∨ s.head? = some 'Y' then ⟨false, some SIGPROF, false⟩
    else ⟨false, some (atoiInt s), decide (atoiInt s ≤ 0)⟩

/-
Theorems.  One theorem per claim of the specification, with helper
lemmas shared between them.
-/

/-- Helper: a '*' at the end of a pattern matches any remaining string. -/
theorem match_glob_star_nilpat (s : List Char) : match_glob_star [] s = true := by
  induction s with
  | nil => simp [match_glob_star, match_glob]
  | cons c r ih => rw [match_glob_star]; simp [match_glob, ih]

/-- Claim C2: the extended-glob matcher realizes the documented pattern
semantics on its characteristic cases: a sole '*' matches every string
(in particular the empty run), 'a:b' matches exactly 'a' or exactly
'b', 'a(b:c)d' matches exactly 'abd' and 'acd', 'a(b:)c' matches
exactly 'abc' and 'ac', and '?' never matches at end-of-string. -/
theorem tracy_C2 :
    (∀ s, match_eglob ['*'] s = true) ∧
    (∀ t, match_eglob ['a', ':', 'b'] t = true ↔ t = ['a'] ∨ t = ['b']) ∧
    (∀ t, match_eglob ['a', '(', 'b', ':', 'c', ')', 'd'] t = true ↔
      t = ['a', 'b', 'd'] ∨ t = ['a', 'c', 'd']) ∧
    (∀ t, match_eglob ['a', '(', 'b', ':', ')', 'c'] t = true ↔
      t = ['a', 'b', 'c'] ∨ t = ['a', 'c']) ∧
    (∀ p, match_glob ('?' :: p) [] = false) := by
  refine ⟨?_, ?_, ?_, ?_, ?_⟩
  · intro s
    simp [match_eglob, match_glob, match_glob_star_nilpat]
  · intro t
    match t with
    | [] =>
      simp [match_eglob, match_eglob_alt, match_glob, match_glob_jump,
        match_glob_lit, find_end_of_glob, feog]
    | [c1] =>
      simp [match_eglob, match_eglob_alt, match_glob, match_glob_jump,
        match_glob_lit, find_end_of_glob, feog]
    | c1 :: c2 :: t =>
      simp [match_eglob, match_eglob_alt, match_glob, match_glob_jump,
        match_glob_lit, find_end_of_glob, feog]
  · intro t
    match t with
    | [] =>
      simp [match_eglob, match_eglob_alt, match_glob, match_glob_jump,
        match_glob_lit, find_end_of_glob, feog]
    | [c1] =>
      simp [match_eglob, match_eglob_alt, match_glob, match_glob_jump,
        match_glob_lit, find_end_of_glob, feog]
    | [c1, c2] =>
      simp [match_eglob, match_eglob_alt, match_glob, match_glob_jump,
        match_glob_lit, find_end_of_glob, feog]
    | [c1, c2, c3] =>
      simp [match_eglob, match_eglob_alt, match_glob, match_glob_jump,
        match_glob_lit, find_end_of_glob, feog] <;> tauto
    | c1 :: c2 :: c3 :: c4 :: t =>
      simp [match_eglob, match_eglob_alt, match_glob, match_glob_jump,
        match_glob_lit, find_end_of_glob, feog]
  · intro t
    match t with
    | [] =>
      simp [match_eglob, match_eglob_alt, match_glob, match_glob_jump,
        match_glob_lit, find_end_of_glob, feog]
    | [c1] =>
      simp [match_eglob, match_eglob_alt, match_glob, match_glob_jump,
        match_glob_lit, find_end_of_glob, feog]
    | [c1, c2] =>
      simp [match_eglob, match_eglob_alt, match_glob, match_glob_jump,
        match_glob_lit, find_end_of_glob, feog] <;> tauto
    | [c1, c2, c3] =>
      simp [match_eglob, match_eglob_alt, match_glob, match_glob_jump,
        match_glob_lit, find_end_of_glob, feog] <;> tauto
    | c1 :: c2 :: c3 :: c4 :: t =>
      simp [match_eglob, match_eglob_alt, match_glob, match_glob_jump,
        match_glob_lit, find_end_of_glob, feog]
  · intro p
    simp [match_glob, match_glob_one]

/-- Claim C4, counterexample: with no depth limit and a failing
backtrace, print_trace emits nothing but returns admitted, and the
enter hook therefore increments the depth counter from 0 to 1 — the
event is counted toward depth, contrary to the claim. -/
theorem tracy_C4_counterexample :
    print_trace ⟨false, 0, false, false⟩ 0 true ⟨false, Resolve.named⟩ = (true, none) ∧
    (__cyg_profile_func_enter ⟨false, 0, false, false⟩ true 0
      ⟨false, Resolve.named⟩).1 = 1 := by
  decide

/-- Claim C4, amended: whenever print_trace reaches the backtrace call
(the depth limit did not already suppress the event) and backtrace
returns fewer than three frames, the event is skipped with nothing
emitted, but print_trace returns admitted, so the enter hook increments
the depth counter. -/
theorem tracy_C4_amended (cfg : Config) (d : Nat) (ie : Bool) (ev : Event)
    (hlim : ¬(cfg.depth_limited = true ∧ cfg.depth_limit ≤ d))
    (hbt : ev.bt_ok = false) :
    print_trace cfg d ie ev = (true, none) ∧
    (__cyg_profile_func_enter cfg true d ev).1 = inc32 d := by
  constructor
  · simp [print_trace, hlim, hbt]
  · simp [__cyg_profile_func_enter, print_trace, hlim, hbt]

/-- Claim C4, witness at a concrete input. -/
theorem tracy_C4_witness :
    print_trace ⟨false, 0, false, false⟩ 2 true ⟨false, Resolve.named⟩ = (true, none) ∧
    (__cyg_profile_func_enter ⟨false, 0, false, false⟩ true 2
      ⟨false, Resolve.named⟩).1 = inc32 2 :=
  tracy_C4_amended ⟨false, 0, false, false⟩ 2 true ⟨false, Resolve.named⟩
    (by decide) (by decide)

/-- Claim C5, counterexample: with TRACY_MAXDEPTH set to the non-numeric
string "x" (atoi value 0, not a positive integer), an event passing the
filters at depth 0 is NOT emitted (the unsigned limit is 0, so every
depth is at or beyond it), while with TRACY_MAXDEPTH unset the same
event is emitted — not the claimed unlimited behaviour. -/
theorem tracy_C5_counterexample :
    print_trace (configOfMax (some ['x']) false false) 0 true
      ⟨true, Resolve.named⟩ = (true, none) ∧
    print_trace (configOfMax none false false) 0 true
      ⟨true, Resolve.named⟩ = (true, some 0) := by
  decide

/-- Claim C5, amended: a set, non-empty TRACY_MAXDEPTH always enables
depth limiting with the unsigned conversion of its atoi value as the
limit: events at depths at or beyond that limit are suppressed (so a
value whose atoi is 0, e.g. a non-numeric string, suppresses every
event), and below the limit print_trace behaves exactly as with the
variable unset. -/
theorem tracy_C5_amended (s : List Char) (async eo : Bool) (d : Nat)
    (ie : Bool) (ev : Event) (hs : s ≠ []) :
    print_trace (configOfMax (some s) async eo) d ie ev =
      (if (atoiInt s % (M32 : Int)).toNat ≤ d then (true, none)
       else print_trace (configOfMax none async eo) d ie ev) := by
  by_cases hd : (atoiInt s % (M32 : Int)).toNat ≤ d
  · simp [print_trace, configOfMax, maxdepth_config, hs, hd]
  · simp [print_trace, configOfMax, maxdepth_config, hs, hd]

/-- Claim C5, witness at a concrete input. -/
theorem tracy_C5_witness :
    print_trace (configOfMax (some ['0']) false false) 3 true
      ⟨true, Resolve.named⟩ =
      (if (atoiInt ['0'] % (M32 : Int)).toNat ≤ 3 then (true, none)
       else print_trace (configOfMax none false false) 3 true
         ⟨true, Resolve.named⟩) :=
  tracy_C5_amended ['0'] false false 3 true ⟨true, Resolve.named⟩ (by decide)

/-- Claim C6, counterexample: with TRACY_SIGNAL set to "0" (does not
start with y or Y, atoi value 0, non-positive), tracy_init leaves the
Tracing flag cleared, whereas with the variable unset the flag keeps its
initial value 1 — tracing is NOT active from process start. -/
theorem tracy_C6_counterexample :
    (tracy_init (some ['0'])).Tracing = false ∧
    (tracy_init none).Tracing = true := by
  decide

/-- Claim C6, amended: for a TRACY_SIGNAL value not beginning with y or
Y whose atoi value is non-positive, tracy_init emits the diagnostic but
still calls signal() on that non-positive number and clears the Tracing
flag, so tracing starts out disabled (and, the handler installation
failing, cannot be toggled on). -/
theorem tracy_C6_amended (s : List Char)
    (hy : s.head? ≠ some 'y') (hY : s.head? ≠ some 'Y')
    (hnp : atoiInt s ≤ 0) :
    tracy_init (some s) = ⟨false, some (atoiInt s), true⟩ := by
  simp [tracy_init, hy, hY, hnp]

/-- Claim C6, witness at a concrete input. -/
theorem tracy_C6_witness :
    tracy_init (some ['0']) = ⟨false, some (atoiInt ['0']), true⟩ :=
  tracy_C6_amended ['0'] (by decide) (by decide) (by decide)

/-- Claim C8, counterexample: in synchronous mode with entries-only
configured, a LEAVE for an event the filters suppress makes print_trace
return 0 — suppressed-by-filter — contradicting the claim that it never
does so for a LEAVE (the C runs addr2name and its filters before the
entries-only check). -/
theorem tracy_C8_counterexample :
    (print_trace ⟨false, 0, false, true⟩ 0 false
      ⟨true, Resolve.filtered⟩).1 = false := by
  decide

/-- Claim C8, amended: in synchronous mode with entries-only
configured, a LEAVE never produces an emitted line, and print_trace
returns suppressed-by-filter for it exactly when the event reaches the
filters and they suppress it (not cut off earlier by the depth limit or
a failing backtrace); such suppressed LEAVEs keep the exit hook's
decrement undone, exactly as without entries-only. -/
theorem tracy_C8_amended (cfg : Config) (d : Nat) (ev : Event)
    (ha : cfg.async = false) (he : cfg.entries_only = true) :
    (print_trace cfg d false ev).2 = none ∧
    ((print_trace cfg d false ev).1 = false ↔
      (¬(cfg.depth_limited = true ∧ cfg.depth_limit ≤ d) ∧
        ev.bt_ok = true ∧ ev.resolve = Resolve.filtered)) := by
  by_cases h1 : cfg.depth_limited = true ∧ cfg.depth_limit ≤ d
  · simp [print_trace, h1]
  · by_cases h2 : ev.bt_ok = false
    · simp [print_trace, h1, h2]
    · by_cases h3 : ev.resolve = Resolve.filtered
      · simp [print_trace, h1, h2, h3, ha, he]
      · simp [print_trace, h1, h2, h3, ha, he]

/-- Claim C8, witness at a concrete input. -/
theorem tracy_C8_witness :
    (print_trace ⟨false, 5, false, true⟩ 1 false ⟨true, Resolve.named⟩).2 = none ∧
    ((print_trace ⟨false, 5, false, true⟩ 1 false ⟨true, Resolve.named⟩).1 = false ↔
      (¬((⟨false, 5, false, true⟩ : Config).depth_limited = true ∧
          (⟨false, 5, false, true⟩ : Config).depth_limit ≤ 1) ∧
        (⟨true, Resolve.named⟩ : Event).bt_ok = true ∧
        (⟨true, Resolve.named⟩ : Event).resolve = Resolve.filtered)) :=
  tracy_C8_amended ⟨false, 5, false, true⟩ 1 ⟨true, Resolve.named⟩ rfl rfl

/-- Claim C10, counterexample: after the counter wraps to 4294967295 by
an unmatched LEAVE under a depth limit of 5, the very next ENTER is
indeed suppressed by the limit, but — being admitted — it increments
the counter, which wraps to 0, and the ENTER after that is emitted
again: the suppression does NOT last until later decrements wrap the
counter back below the limit. -/
theorem tracy_C10_counterexample :
    __cyg_profile_func_exit ⟨true, 5, false, false⟩ true 0
      ⟨true, Resolve.named⟩ = (4294967295, none) ∧
    __cyg_profile_func_enter ⟨true, 5, false, false⟩ true 4294967295
      ⟨true, Resolve.named⟩ = (0, none) ∧
    __cyg_profile_func_enter ⟨true, 5, false, false⟩ true 0
      ⟨true, Resolve.named⟩ = (1, some 0) := by
  decide

/-- Claim C10, amended: an exit hook run at counter 0 whose print_trace
admits the event wraps the counter to 4294967295, and an emitted LEAVE
line shows that wrapped depth (concretely so in synchronous, unfiltered,
non-entries-only mode without a depth limit); with a depth limit
configured (the unsigned limit is at most 4294967295), the next event at
the wrapped counter is suppressed by the limit, but a suppressed ENTER
still increments the counter, wrapping it to 0, after which events below
the limit are admitted again. -/
theorem tracy_C10_amended :
    (∀ (cfg : Config) (ev : Event),
      (print_trace cfg 4294967295 false ev).1 = true →
      __cyg_profile_func_exit cfg true 0 ev =
        (4294967295, (print_trace cfg 4294967295 false ev).2)) ∧
    (∀ (cfg : Config) (ev : Event),
      cfg.depth_limited = false → cfg.async = false → cfg.entries_only = false →
      ev.bt_ok = true → ev.resolve = Resolve.named →
      __cyg_profile_func_exit cfg true 0 ev = (4294967295, some 4294967295)) ∧
    (∀ (cfg : Config) (ie : Bool) (ev : Event),
      cfg.depth_limited = true → cfg.depth_limit ≤ 4294967295 →
      print_trace cfg 4294967295 ie ev = (true, none)) ∧
    (∀ (cfg : Config) (ev : Event),
      cfg.depth_limited = true → cfg.depth_limit ≤ 4294967295 →
      __cyg_profile_func_enter cfg true 4294967295 ev = (0, none)) := by
  have hdec : dec32 0 = 4294967295 := by decide
  have hinc : inc32 4294967295 = 0 := by decide
  refine ⟨?_, ?_, ?_, ?_⟩
  · intro cfg ev h
    simp [__cyg_profile_func_exit, hdec, h]
  · intro cfg ev h1 h2 h3 h4 h5
    simp [__cyg_profile_func_exit, hdec, print_trace, h1, h2, h3, h4, h5]
  · intro cfg ie ev h1 h2
    simp [print_trace, h1, h2]
  · intro cfg ev h1 h2
    simp [__cyg_profile_func_enter, print_trace, h1, h2, hinc]

/-- Claim C10, witness at concrete inputs. -/
theorem tracy_C10_witness :
    __cyg_profile_func_exit ⟨true, 7, false, false⟩ true 0
      ⟨true, Resolve.named⟩ =
      (4294967295, (print_trace ⟨true, 7, false, false⟩ 4294967295 false
        ⟨true, Resolve.named⟩).2) ∧
    __cyg_profile_func_exit ⟨false, 0, false, false⟩ true 0
      ⟨true, Resolve.named⟩ = (4294967295, some 4294967295) ∧
    print_trace ⟨true, 7, false, false⟩ 4294967295 true
      ⟨true, Resolve.named⟩ = (true, none) ∧
    __cyg_profile_func_enter ⟨true, 7, false, false⟩ true 4294967295
      ⟨true, Resolve.named⟩ = (0, none) :=
  ⟨tracy_C10_amended.1 ⟨true, 7, false, false⟩ ⟨true, Resolve.named⟩ (by decide),
   tracy_C10_amended.2.1 ⟨false, 0, false, false⟩ ⟨true, Resolve.named⟩
     rfl rfl rfl rfl rfl,
   tracy_C10_amended.2.2.1 ⟨true, 7, false, false⟩ true ⟨true, Resolve.named⟩
     rfl (by decide),
   tracy_C10_amended.2.2.2 ⟨true, 7, false, false⟩ ⟨true, Resolve.named⟩
     rfl (by decide)⟩

/-- Helper: unsigned increment after decrement is the identity below 2^32. -/
theorem inc32_dec32 (a : Nat) (h : a < M32) : inc32 (dec32 a) = a := by
  simp only [inc32, dec32, M32] at *
  omega

/-- Helper: unsigned increment below the wrap point. -/
theorem inc32_eq (a : Nat) (h : a + 1 < M32) : inc32 a = a + 1 := by
  simp only [inc32, M32] at *
  omega

/-- Helper: unsigned decrement of a successor below the wrap point. -/
theorem dec32_inc (a : Nat) (h : a + 1 < M32) : dec32 (a + 1) = a := by
  simp only [dec32, M32] at *
  omega

/-- Helper: without a depth limit, if a frame's ENTER was admitted then
its LEAVE at the same depth is admitted as well (bt_ok and the filter
outcome being per-frame). -/
theorem leave_admitted_of_enter (cfg : Config) (hnl : cfg.depth_limited = false)
    (a : Nat) (ev : Event) (hc : (print_trace cfg a true ev).1 = true) :
    (print_trace cfg a false ev).1 = true := by
  by_cases h2 : ev.bt_ok = false
  · simp [print_trace, hnl, h2]
  · by_cases h3 : cfg.async = true
    · simp [print_trace, hnl, h2, h3]
    · by_cases h4 : ev.resolve = Resolve.filtered
      · simp [print_trace, hnl, h2, h3, h4] at hc
      · by_cases h5 : cfg.entries_only = true
        · simp [print_trace, hnl, h2, h3, h4, h5]
        · simp [print_trace, hnl, h2, h3, h4, h5]

/-- Helper: without a depth limit, a suppressed ENTER pins down the
event — the backtrace succeeded, the mode is synchronous and the
filters suppressed it — and the matching LEAVE is then suppressed at
every depth, with nothing emitted by either hook call. -/
theorem enter_suppressed_char (cfg : Config) (hnl : cfg.depth_limited = false)
    (a : Nat) (ev : Event) (hc : (print_trace cfg a true ev).1 = false) :
    (print_trace cfg a true ev).2 = none ∧
    ∀ d, print_trace cfg d false ev = (false, none) := by
  by_cases h2 : ev.bt_ok = false
  · simp [print_trace, hnl, h2] at hc
  · by_cases h3 : cfg.async = true
    · simp [print_trace, hnl, h2, h3] at hc
    · by_cases h4 : ev.resolve = Resolve.filtered
      · constructor
        · simp [print_trace, hnl, h2, h3, h4]
        · intro d
          simp [print_trace, hnl, h2, h3, h4]
      · by_cases h5 : cfg.entries_only = true
        · simp [print_trace, hnl, h2, h3, h4, h5] at hc
        · simp [print_trace, hnl, h2, h3, h4, h5] at hc

/-- Claim C1, counterexample: with a depth limit of 5 and a single
frame suppressed by the function filter entered at depth 0, the run is
not balanced: the LEAVE decrements the counter from 0 to 4294967295,
and the depth-limit check (4294967295 >= 5) then swallows the undo that
the filter suppression should have produced, leaving the counter at
4294967295 instead of 0. -/
theorem tracy_C1_counterexample :
    runT ⟨true, 5, false, false⟩ 0
      (Trace.node ⟨true, Resolve.filtered⟩ Trace.finish Trace.finish) =
      (4294967295, []) := by
  decide

/-- Claim C1, amended: with tracing enabled and no depth limit
configured, for every well-nested run of hook invocations and any
filter configuration, the depth counter returns to its initial value
after every frame (increments and decrements balance), and the depth
annotation on each emitted line equals the number of
admitted-and-not-yet-left frames enclosing it (computed independently
by specT from the admitted-ancestor count); on_enter increments exactly
when print_trace returns admitted and on_exit's decrement is undone
exactly when it returns suppressed-by-filter, as these definitions
state.  (With a depth limit the balance can break: see the
counterexample, where a filter-suppressed frame closed at counter 0
wraps the counter.) -/
theorem tracy_C1_amended (cfg : Config) (hnl : cfg.depth_limited = false) :
    ∀ (t : Trace) (a : Nat), a + heightT t < M32 →
      runT cfg a t = (a, specT cfg a t) := by
  intro t
  induction t with
  | finish => intro a ha; simp [runT, specT]
  | node ev inner rest ih1 ih2 =>
    intro a ha
    have hh : 1 + heightT inner ≤ heightT (Trace.node ev inner rest) ∧
        heightT rest ≤ heightT (Trace.node ev inner rest) := by
      constructor <;> simp [heightT] <;> omega
    have hbound : a + 1 < M32 := by omega
    have hInner : (a + 1) + heightT inner < M32 := by omega
    have hInner0 : a + heightT inner < M32 := by omega
    have hRest : a + heightT rest < M32 := by omega
    by_cases hc : (print_trace cfg a true ev).1 = true
    · have henter : __cyg_profile_func_enter cfg true a ev =
          (a + 1, (print_trace cfg a true ev).2) := by
        simp [__cyg_profile_func_enter, hc, inc32_eq a hbound]
      have hleave1 : (print_trace cfg a false ev).1 = true :=
        leave_admitted_of_enter cfg hnl a ev hc
      have hexit : __cyg_profile_func_exit cfg true (a + 1) ev =
          (a, (print_trace cfg a false ev).2) := by
        simp [__cyg_profile_func_exit, dec32_inc a hbound, hleave1]
      simp only [runT, henter, ih1 (a + 1) hInner, hexit, ih2 a hRest,
        specT, hc, if_pos]
    · have hcf : (print_trace cfg a true ev).1 = false := by
        revert hc; cases (print_trace cfg a true ev).1 <;> simp
      obtain ⟨h2none, hleave⟩ := enter_suppressed_char cfg hnl a ev hcf
      have henter : __cyg_profile_func_enter cfg true a ev = (a, none) := by
        simp [__cyg_profile_func_enter, hcf, h2none]
      have hexit : __cyg_profile_func_exit cfg true a ev = (a, none) := by
        simp [__cyg_profile_func_exit, hleave (dec32 a),
          inc32_dec32 a (by omega)]
      simp only [runT, henter, ih1 a hInner0, hexit, ih2 a hRest,
        specT, hcf]
      simp [h2none]

/-- Claim C1, witness: a concrete run — an admitted frame containing a
filtered frame — balances back to 0 and prints depth 0 for the outer
frame's two lines, as specT predicts. -/
theorem tracy_C1_witness :
    runT ⟨false, 0, false, false⟩ 0
      (Trace.node ⟨true, Resolve.named⟩
        (Trace.node ⟨true, Resolve.filtered⟩ Trace.finish Trace.finish)
        Trace.finish) =
      (0, specT ⟨false, 0, false, false⟩ 0
        (Trace.node ⟨true, Resolve.named⟩
          (Trace.node ⟨true, Resolve.filtered⟩ Trace.finish Trace.finish)
          Trace.finish)) :=
  tracy_C1_amended ⟨false, 0, false, false⟩ rfl
    (Trace.node ⟨true, Resolve.named⟩
      (Trace.node ⟨true, Resolve.filtered⟩ Trace.finish Trace.finish)
      Trace.finish) 0 (by decide)

/-- Helper: one more character into the additive hash. -/
theorem hashOf_append (pre : List Char) (c : Char) :
    hashOf (pre ++ [c]) = addChar (hashOf pre) c := by
  simp [hashOf, List.foldl_append]

/-- Helper: hash_path_aux computes hash, length and position of the last
'/'-separated component. -/
theorem hash_path_aux_spec : ∀ (rest pre : List Char),
    hash_path_aux rest ⟨hashOf pre, pre.length, pre ++ rest⟩ =
      ⟨hashOf (lastSeg pre rest), (lastSeg pre rest).length, lastSeg pre rest⟩ := by
  intro rest
  induction rest with
  | nil => intro pre; simp [hash_path_aux, lastSeg]
  | cons c r ih =>
    intro pre
    by_cases hc : c = '/'
    · subst hc
      have h0 := ih []
      simp only [hash_path_aux, lastSeg, if_pos rfl]
      simpa [hashOf] using h0
    · have h1 := ih (pre ++ [c])
      simp only [hash_path_aux, lastSeg, if_neg hc]
      rw [show pre ++ c :: r = (pre ++ [c]) ++ r by simp]
      rw [← hashOf_append pre c]
      have hlen : (pre ++ [c]).length = pre.length + 1 := by simp
      rw [← hlen]
      exact h1

/-- Helper: hash_path fills the word with the hash, length and text of
the basename of the path. -/
theorem hash_path_spec (x : List Char) :
    hash_path x = ⟨hashOf (basename x), (basename x).length, basename x⟩ := by
  have h := hash_path_aux_spec x []
  simpa [hash_path, basename, hashOf] using h

/-- Helper: when the rest still contains a '/', the component read so
far is irrelevant to lastSeg. -/
theorem lastSeg_irrel : ∀ (rest : List Char), ('/' : Char) ∈ rest →
    ∀ (pre pre2 : List Char), lastSeg pre rest = lastSeg pre2 rest := by
  intro rest
  induction rest with
  | nil => intro h; cases h
  | cons c r ih =>
    intro h pre pre2
    by_cases hc : c = '/'
    · simp [lastSeg, hc]
    · have hr : ('/' : Char) ∈ r := by
        rcases List.mem_cons.mp h with h1 | h1
        · exact absurd h1.symm hc
        · exact h1
      simp only [lastSeg, if_neg hc]
      exact ih hr _ _

/-- Helper: without any '/', lastSeg appends. -/
theorem lastSeg_no_slash : ∀ (rest : List Char), ('/' : Char) ∉ rest →
    ∀ (pre : List Char), lastSeg pre rest = pre ++ rest := by
  intro rest
  induction rest with
  | nil => intro _ pre; simp [lastSeg]
  | cons c r ih =>
    intro h pre
    have hc : c ≠ '/' := fun hcc => h (by simp [hcc])
    have hr : ('/' : Char) ∉ r := fun hrr => h (by simp [hrr])
    simp only [lastSeg, if_neg hc]
    rw [ih hr]
    simp

/-- Helper: basename of a string with a '/' is the basename of what
follows the last such '/'. -/
theorem basename_append (a b : List Char) :
    basename (a ++ '/' :: b) = basename b := by
  induction a with
  | nil => simp [basename, lastSeg]
  | cons c a2 ih =>
    by_cases hc : c = '/'
    · subst hc
      simp only [basename, List.cons_append, lastSeg, if_pos rfl]
      have hm : ('/' : Char) ∈ a2 ++ '/' :: b := by simp
      calc lastSeg [] (a2 ++ '/' :: b) = basename (a2 ++ '/' :: b) := rfl
        _ = basename b := ih
    · simp only [basename, List.cons_append, lastSeg, if_neg hc,
        List.append_eq, List.nil_append]
      have hm : ('/' : Char) ∈ a2 ++ '/' :: b := by simp
      rw [lastSeg_irrel _ hm [c] []]
      exact ih

/-- Helper: splitSegs never returns the empty list. -/
theorem splitSegs_ne_nil : ∀ (r : List Char), splitSegs r ≠ [] := by
  intro r
  induction r with
  | nil => simp [splitSegs]
  | cons c rest ih =>
    by_cases hc : c = ':'
    · simp [splitSegs, hc]
    · simp only [splitSegs, if_neg hc]
      cases h : splitSegs rest with
      | nil => exact absurd h ih
      | cons s ss => simp [List.modifyHead]

/-- Helper: segsFull with an empty prefix is splitSegs. -/
theorem segsFull_nilpre (r : List Char) : segsFull [] r = splitSegs r := by
  unfold segsFull
  cases h : splitSegs r with
  | nil => exact absurd h (splitSegs_ne_nil r)
  | cons s ss => simp

/-- Helper: segsFull after a colon starts a fresh segment. -/
theorem segsFull_colon (pre r : List Char) :
    segsFull pre (':' :: r) = pre :: splitSegs r := by
  unfold segsFull
  simp only [splitSegs, if_pos rfl]
  simp

/-- Helper: segsFull absorbs a non-colon head into the prefix. -/
theorem segsFull_cons (pre : List Char) (c : Char) (r : List Char)
    (hc : c ≠ ':') : segsFull pre (c :: r) = segsFull (pre ++ [c]) r := by
  unfold segsFull
  simp only [splitSegs, if_neg hc]
  cases h : splitSegs r with
  | nil => exact absurd h (splitSegs_ne_nil r)
  | cons s ss => simp [List.modifyHead]

/-- Helper: the budgeted segment split is a truncation of the full one. -/
theorem segsA_take : ∀ (rest : List Char) (b : Nat) (pre : List Char),
    segsA b pre rest = (segsFull pre rest).take (b + 1) := by
  intro rest
  induction rest with
  | nil => intro b pre; simp [segsA, segsFull, splitSegs]
  | cons c r ih =>
    intro b pre
    by_cases hc : c = ':'
    · subst hc
      match b with
      | 0 => simp [segsA, segsFull_colon]
      | Nat.succ b2 =>
        simp only [segsA, if_pos rfl, segsFull_colon]
        rw [ih b2 []]
        simp [segsFull_nilpre, List.take_succ_cons]
    · simp only [segsA, if_neg hc, segsFull_cons pre c r hc]
      exact ih b (pre ++ [c])

/-- Helper: with enough budget the truncation is trivial. -/
theorem segsA_of_count : ∀ (rest : List Char) (b : Nat) (pre : List Char),
    rest.count ':' ≤ b → segsA b pre rest = segsFull pre rest := by
  intro rest
  induction rest with
  | nil => intro b pre _; simp [segsA, segsFull, splitSegs]
  | cons c r ih =>
    intro b pre h
    by_cases hc : c = ':'
    · subst hc
      have hcount : r.count ':' + 1 ≤ b := by
        simpa [List.count_cons] using h
      match b with
      | 0 => omega
      | Nat.succ b2 =>
        simp only [segsA, if_pos rfl, segsFull_colon]
        rw [ih b2 [] (by omega)]
        simp [segsFull_nilpre]
    · have hcount : r.count ':' ≤ b := by
        have : (c :: r).count ':' = r.count ':' := by
          simp [List.count_cons, hc]
        omega
      simp only [segsA, if_neg hc, segsFull_cons pre c r hc]
      exact ih b (pre ++ [c]) hcount

/-- Helper: the budgeted mkwords loop produces exactly the words of the
budget-truncated segments: same hashes, same lengths, and the memcmp
window of each word (the first length characters from its position in
the string) is the segment itself. -/
theorem mkwords_auxA_spec : ∀ (rest : List Char) (b : Nat) (pre : List Char),
    (mkwords_auxA b rest ⟨hashOf pre, pre.length, pre ++ rest⟩).map
        (fun w => (w.hash, w.length, w.word.take w.length)) =
      (segsA b pre rest).map (fun g => (hashOf g, g.length, g)) := by
  intro rest
  induction rest with
  | nil =>
    intro b pre
    simp [mkwords_auxA, segsA, List.take_length]
  | cons c r ih =>
    intro b pre
    by_cases hc : c = ':'
    · subst hc
      match b with
      | 0 =>
        simp only [mkwords_auxA, if_pos rfl, segsA]
        simp [List.take_left]
      | Nat.succ b2 =>
        simp only [mkwords_auxA, segsA, if_pos rfl, if_true, List.map_cons]
        congr 1
        · simp [List.take_left]
        · have h0 := ih b2 []
          simpa [hashOf] using h0
    · simp only [mkwords_auxA, if_neg hc, segsA]
      have h1 := ih b (pre ++ [c])
      rw [show pre ++ c :: r = (pre ++ [c]) ++ r by simp] at *
      rw [← hashOf_append pre c]
      have hlen : (pre ++ [c]).length = pre.length + 1 := by simp
      rw [← hlen]
      exact h1

/-- Helper: with enough budget the budgeted loop is the real one. -/
theorem mkwords_aux_eq_auxA : ∀ (rest : List Char) (w : Word) (b : Nat),
    rest.count ':' ≤ b → mkwords_auxA b rest w = mkwords_aux rest w := by
  intro rest
  induction rest with
  | nil => intro w b _; simp [mkwords_auxA, mkwords_aux]
  | cons c r ih =>
    intro w b h
    by_cases hc : c = ':'
    · subst hc
      have hcount : r.count ':' + 1 ≤ b := by
        simpa [List.count_cons] using h
      match b with
      | 0 => omega
      | Nat.succ b2 =>
        simp only [mkwords_auxA, mkwords_aux, if_pos rfl, if_true]
        rw [ih _ b2 (by omega)]
    · have hcount : r.count ':' ≤ b := by
        have : (c :: r).count ':' = r.count ':' := by
          simp [List.count_cons, hc]
        omega
      simp only [mkwords_auxA, mkwords_aux, if_neg hc]
      exact ih _ b hcount

/-- Helper: walking a word list whose hash/length/memcmp-window triples
are those of a list of segments, the basename word matches exactly when
the basename is one of the segments — the hash and length prefilters
never change the outcome of the full comparison. -/
theorem match_words_loop_spec : ∀ (ws : List Word) (segs : List (List Char)),
    ws.map (fun w => (w.hash, w.length, w.word.take w.length)) =
      segs.map (fun g => (hashOf g, g.length, g)) →
    ∀ (bn : List Char),
      match_words_loop ⟨hashOf bn, bn.length, bn⟩ ws =
        (if bn ∈ segs then some bn else none) := by
  intro ws
  induction ws with
  | nil =>
    intro segs h bn
    cases segs with
    | nil => simp [match_words_loop]
    | cons g segs2 => simp at h
  | cons w ws2 ih =>
    intro segs h bn
    cases segs with
    | nil => simp at h
    | cons g segs2 =>
      simp only [List.map_cons, List.cons.injEq, Prod.mk.injEq] at h
      obtain ⟨⟨hw1, hw2, hw3⟩, htail⟩ := h
      by_cases hbg : bn = g
      · subst hbg
        have e1 : ¬((⟨hashOf bn, bn.length, bn⟩ : Word).hash ≠ w.hash) := by
          simp [hw1]
        have e2 : ¬((⟨hashOf bn, bn.length, bn⟩ : Word).length ≠ w.length) := by
          simp [hw2]
        have e3 : ¬((⟨hashOf bn, bn.length, bn⟩ : Word).word.take
            (⟨hashOf bn, bn.length, bn⟩ : Word).length ≠
            w.word.take (⟨hashOf bn, bn.length, bn⟩ : Word).length) := by
          simp only [not_not]
          show bn.take bn.length = w.word.take bn.length
          rw [List.take_length, ← hw2, hw3]
        rw [match_words_loop, if_neg e1, if_neg e2, if_neg e3]
        simp
      · have hskip : match_words_loop ⟨hashOf bn, bn.length, bn⟩ (w :: ws2) =
            match_words_loop ⟨hashOf bn, bn.length, bn⟩ ws2 := by
          rw [match_words_loop]
          by_cases h1 : (⟨hashOf bn, bn.length, bn⟩ : Word).hash ≠ w.hash
          · rw [if_pos h1]
          · rw [if_neg h1]
            by_cases h2 : (⟨hashOf bn, bn.length, bn⟩ : Word).length ≠ w.length
            · rw [if_pos h2]
            · rw [if_neg h2]
              have h2b : bn.length = w.length := not_not.mp h2
              have h3 : (⟨hashOf bn, bn.length, bn⟩ : Word).word.take
                  (⟨hashOf bn, bn.length, bn⟩ : Word).length ≠
                  w.word.take (⟨hashOf bn, bn.length, bn⟩ : Word).length := by
                show bn.take bn.length ≠ w.word.take bn.length
                rw [List.take_length, h2b, hw3]
                exact hbg
              rw [if_pos h3]
        rw [hskip, ih segs2 htail bn]
        simp [List.mem_cons, hbg]

/-- Helper: segsFull is never empty. -/
theorem segsFull_ne_nil (pre r : List Char) : segsFull pre r ≠ [] := by
  unfold segsFull
  cases h : splitSegs r <;> simp

/-- Helper: the outcome of matching a path against a budget-limited word
list built from a non-empty string: the basename pointer comes back
exactly when the basename is among the first b+1 segments. -/
theorem match_words_over (b : Nat) (s x : List Char) (hs : s ≠ []) :
    match_words (mkwordsA (b + 1) s) x =
      (if basename x ∈ segsA b [] s then some (basename x) else none) := by
  have hmk : mkwordsA (b + 1) s = mkwords_auxA b s ⟨0, 0, s⟩ := by
    simp [mkwordsA, hs]
  have hspec : (mkwords_auxA b s ⟨0, 0, s⟩).map
        (fun w => (w.hash, w.length, w.word.take w.length)) =
      (segsA b [] s).map (fun g => (hashOf g, g.length, g)) := by
    have h0 := mkwords_auxA_spec s b []
    simpa [hashOf] using h0
  have hne : mkwords_auxA b s ⟨0, 0, s⟩ ≠ [] := by
    intro hnil
    rw [hnil] at hspec
    have hsegnil : segsA b [] s = [] := by
      cases hsg : segsA b [] s with
      | nil => rfl
      | cons a l => rw [hsg] at hspec; simp at hspec
    rw [segsA_take s b []] at hsegnil
    cases hsf : segsFull [] s with
    | nil => exact segsFull_ne_nil [] s hsf
    | cons a l => rw [hsf] at hsegnil; simp at hsegnil
  rw [hmk]
  cases hws : mkwords_auxA b s ⟨0, 0, s⟩ with
  | nil => exact absurd hws hne
  | cons w ws2 =>
    have : match_words (w :: ws2) x = match_words_loop (hash_path x) (w :: ws2) := rfl
    rw [this, hash_path_spec x, ← hws]
    exact match_words_loop_spec _ _ hspec (basename x)

/-- Claim C3: match_words over mkwords of a list string returns a
non-null pointer — and then precisely the basename of the path —
exactly when the basename (the substring after the last '/', or the
whole path without one) is one of the colon-separated segments of the
list string; mkwords of the empty string is the null list, which
matches nothing. -/
theorem tracy_C3 :
    (∀ x, ('/' : Char) ∉ x → basename x = x) ∧
    (∀ a b, basename (a ++ '/' :: b) = basename b) ∧
    (mkwords [] = []) ∧
    (∀ s x, (match_words (mkwords s) x).isSome = true ↔
      (s ≠ [] ∧ basename x ∈ splitSegs s)) ∧
    (∀ s x, match_words (mkwords s) x = none ∨
      match_words (mkwords s) x = some (basename x)) := by
  have key : ∀ (s x : List Char), s ≠ [] →
      match_words (mkwords s) x =
        (if basename x ∈ splitSegs s then some (basename x) else none) := by
    intro s x hs
    have hcount : s.count ':' ≤ s.count ':' := le_refl _
    have hmk : mkwords s = mkwordsA (s.count ':' + 1) s := by
      rw [mkwords, if_neg hs, mkwordsA, if_neg hs]
      exact (mkwords_aux_eq_auxA s ⟨0, 0, s⟩ (s.count ':') hcount).symm
    rw [hmk, match_words_over (s.count ':') s x hs,
      segsA_of_count s (s.count ':') [] hcount, segsFull_nilpre]
  refine ⟨?_, basename_append, by simp [mkwords], ?_, ?_⟩
  · intro x hx
    simpa [basename] using lastSeg_no_slash x hx []
  · intro s x
    by_cases hs : s = []
    · subst hs
      constructor
      · intro h; simp [mkwords, match_words] at h
      · rintro ⟨h, _⟩; exact absurd rfl h
    · rw [key s x hs]
      by_cases hmem : basename x ∈ splitSegs s <;> simp [hmem, hs]
  · intro s x
    by_cases hs : s = []
    · subst hs; left; simp [mkwords, match_words]
    · rw [key s x hs]
      by_cases hmem : basename x ∈ splitSegs s <;> simp [hmem]

/-- Claim C3, witness at concrete inputs. -/
theorem tracy_C3_witness :
    basename ['l', 'i', 'b'] = ['l', 'i', 'b'] ∧
    (match_words (mkwords ['a', ':', 'l', 'i', 'b'])
      ['u', 's', 'r', '/', 'l', 'i', 'b']).isSome = true :=
  ⟨tracy_C3.1 ['l', 'i', 'b'] (by decide),
   (tracy_C3.2.2.2.1 ['a', ':', 'l', 'i', 'b']
     ['u', 's', 'r', '/', 'l', 'i', 'b']).mpr (by decide)⟩

/-- Claim C7, counterexample: when the second malloc of mkwords fails
while building the list for "a:b" (budget 1), the partial structure is
NOT discarded: the returned list is non-null and acts as a filter over
only the first segment — the path "a" matches it, the path "b" does
not. -/
theorem tracy_C7_counterexample :
    mkwordsA 1 ['a', ':', 'b'] ≠ [] ∧
    match_words (mkwordsA 1 ['a', ':', 'b']) ['a'] = some ['a'] ∧
    match_words (mkwordsA 1 ['a', ':', 'b']) ['b'] = none := by
  refine ⟨by decide, by decide, by decide⟩

/-- Claim C7, amended: if the very first allocation fails, mkwords
returns the null list (no filter); if allocation number b+1 fails after
b successes, mkwords emits a diagnostic and returns the partial list,
which filters over exactly the first b segments of the colon-separated
string — a prefix filter, not an absent one. -/
theorem tracy_C7_amended :
    (∀ s, mkwordsA 0 s = []) ∧
    (∀ (b : Nat) (s x : List Char), 1 ≤ b →
      ((match_words (mkwordsA b s) x).isSome = true ↔
        (s ≠ [] ∧ basename x ∈ (splitSegs s).take b))) := by
  constructor
  · intro s
    by_cases hs : s = [] <;> simp [mkwordsA, hs]
  · intro b s x hb
    match b, hb with
    | Nat.succ b2, _ =>
      by_cases hs : s = []
      · subst hs
        constructor
        · intro h; simp [mkwordsA, match_words] at h
        · rintro ⟨h, _⟩; exact absurd rfl h
      · rw [match_words_over b2 s x hs, segsA_take s b2 [], segsFull_nilpre]
        by_cases hmem : basename x ∈ (splitSegs s).take (b2 + 1) <;>
          simp [hmem, hs]

/-- Claim C7, witness at concrete inputs. -/
theorem tracy_C7_witness :
    (match_words (mkwordsA 2 ['a', ':', 'b', ':', 'c']) ['b']).isSome = true ∧
    (match_words (mkwordsA 2 ['a', ':', 'b', ':', 'c']) ['c']).isSome ≠ true :=
  ⟨(tracy_C7_amended.2 2 ['a', ':', 'b', ':', 'c'] ['b'] (by decide)).mpr
     (by decide),
   fun h => by
     have := (tracy_C7_amended.2 2 ['a', ':', 'b', ':', 'c'] ['c']
       (by decide)).mp h
     exact absurd this.2 (by decide)⟩

/-- Helper: the Bool qualifies test unpacked into its three conditions. -/
theorem qualifies_true_iff (strtab : List Char) (base addr : Nat) (sym : Sym) :
    qualifies strtab base addr sym = true ↔
      (sym.st_value ≤ eddrOf base addr sym ∧ sym.st_name < strtab.length ∧
        strtab.get? sym.st_name ≠ some '$') := by
  simp [qualifies]
  tauto

/-- Helper: the getsym loop carrying a best-so-far candidate c with
running gap diff computes the spec optimum of the remaining table,
compared against diff, with ties going to the earlier entry. -/
theorem getsymLoop_some (strtab : List Char) (base addr : Nat) :
    ∀ (l : List Sym) (diff : Nat) (c : Sym),
    getsymLoop strtab base addr l diff (some c) =
      stepBest base addr diff c (pickSpec strtab base addr l) := by
  intro l
  induction l with
  | nil => intro diff c; simp [getsymLoop, pickSpec, stepBest]
  | cons sym rest ih =>
    intro diff c
    have hgap : symGap base addr sym =
        eddrOf base addr sym - sym.st_value := rfl
    by_cases hq : qualifies strtab base addr sym = true
    · obtain ⟨hv, hb, hdol⟩ := (qualifies_true_iff strtab base addr sym).mp hq
      have he : ¬(eddrOf base addr sym < sym.st_value) := by omega
      have hn1 : ¬(strtab.length ≤ sym.st_name) := by omega
      rw [getsymLoop, if_neg he, pickSpec, if_pos hq]
      by_cases hnd : eddrOf base addr sym - sym.st_value < diff
      · rw [if_pos (Or.inr hnd : some c = none ∨ _), if_neg hn1, if_neg hdol]
        by_cases h0 : eddrOf base addr sym - sym.st_value = 0
        · rw [if_pos h0]
          cases hp : pickSpec strtab base addr rest with
          | none =>
            rw [pickBetter, stepBest,
              if_pos (show symGap base addr sym < diff by rw [hgap]; omega)]
          | some t =>
            have hng : ¬(symGap base addr t < symGap base addr sym) := by
              rw [hgap]; omega
            rw [pickBetter, if_neg hng, stepBest,
              if_pos (show symGap base addr sym < diff by rw [hgap]; omega)]
        · rw [if_neg h0, ih _ sym]
          cases hp : pickSpec strtab base addr rest with
          | none =>
            rw [stepBest, pickBetter, stepBest,
              if_pos (show symGap base addr sym < diff by rw [hgap]; omega)]
          | some t =>
            by_cases hg : symGap base addr t < symGap base addr sym
            · have hg2 : symGap base addr t <
                  eddrOf base addr sym - sym.st_value := by
                rw [← hgap]; exact hg
              rw [stepBest, if_pos hg2, pickBetter, if_pos hg, stepBest,
                if_pos (show symGap base addr t < diff by omega)]
            · have hg2 : ¬(symGap base addr t <
                  eddrOf base addr sym - sym.st_value) := by
                rw [← hgap]; exact hg
              rw [stepBest, if_neg hg2, pickBetter, if_neg hg, stepBest,
                if_pos (show symGap base addr sym < diff by rw [hgap]; omega)]
      · have hnd2 : ¬(some c = none ∨
            eddrOf base addr sym - sym.st_value < diff) := by
          simp [hnd]
        rw [if_neg hnd2, ih diff c]
        cases hp : pickSpec strtab base addr rest with
        | none =>
          rw [stepBest, pickBetter, stepBest,
            if_neg (show ¬(symGap base addr sym < diff) by rw [hgap]; omega)]
        | some t =>
          by_cases hg : symGap base addr t < symGap base addr sym
          · rw [stepBest, pickBetter, if_pos hg, stepBest]
          · have hge : ¬(symGap base addr t < diff) := by
              rw [hgap] at hg; omega
            rw [stepBest, if_neg hge, pickBetter, if_neg hg, stepBest,
              if_neg (show ¬(symGap base addr sym < diff) by rw [hgap]; omega)]
    · have epick : pickSpec strtab base addr (sym :: rest) =
          pickSpec strtab base addr rest := by
        rw [pickSpec, if_neg hq]
      rw [epick, ← ih diff c, getsymLoop]
      rw [qualifies_true_iff] at hq
      by_cases he : eddrOf base addr sym < sym.st_value
      · rw [if_pos he]
      · rw [if_neg he]
        by_cases hnd : (some c = none ∨
            eddrOf base addr sym - sym.st_value < diff)
        · rw [if_pos hnd]
          by_cases hn1 : strtab.length ≤ sym.st_name
          · rw [if_pos hn1]
          · rw [if_neg hn1]
            have hn2 : strtab.get? sym.st_name = some '$' := by
              by_contra hc
              exact hq ⟨by omega, by omega, hc⟩
            rw [if_pos hn2]
        · rw [if_neg hnd]

/-- Helper: the getsym loop started with no candidate computes exactly
the spec optimum of the table. -/
theorem getsymLoop_none (strtab : List Char) (base addr : Nat) :
    ∀ (l : List Sym) (diff : Nat),
    getsymLoop strtab base addr l diff none = pickSpec strtab base addr l := by
  intro l
  induction l with
  | nil => intro diff; simp [getsymLoop, pickSpec]
  | cons sym rest ih =>
    intro diff
    have hgap : symGap base addr sym =
        eddrOf base addr sym - sym.st_value := rfl
    by_cases hq : qualifies strtab base addr sym = true
    · obtain ⟨hv, hb, hdol⟩ := (qualifies_true_iff strtab base addr sym).mp hq
      have he : ¬(eddrOf base addr sym < sym.st_value) := by omega
      have hn1 : ¬(strtab.length ≤ sym.st_name) := by omega
      rw [getsymLoop, if_neg he,
        if_pos (Or.inl rfl : (none : Option Sym) = none ∨ _),
        if_neg hn1, if_neg hdol, pickSpec, if_pos hq]
      by_cases h0 : eddrOf base addr sym - sym.st_value = 0
      · rw [if_pos h0]
        cases hp : pickSpec strtab base addr rest with
        | none => rw [pickBetter]
        | some t =>
          have hng : ¬(symGap base addr t < symGap base addr sym) := by
            rw [hgap]; omega
          rw [pickBetter, if_neg hng]
      · rw [if_neg h0, getsymLoop_some strtab base addr rest _ sym]
        cases hp : pickSpec strtab base addr rest with
        | none => rw [stepBest, pickBetter]
        | some t => rw [stepBest, pickBetter, hgap]
    · have epick : pickSpec strtab base addr (sym :: rest) =
          pickSpec strtab base addr rest := by
        rw [pickSpec, if_neg hq]
      rw [epick, ← ih diff, getsymLoop]
      rw [qualifies_true_iff] at hq
      by_cases he : eddrOf base addr sym < sym.st_value
      · rw [if_pos he]
      · rw [if_neg he,
          if_pos (Or.inl rfl : (none : Option Sym) = none ∨ _)]
        by_cases hn1 : strtab.length ≤ sym.st_name
        · rw [if_pos hn1]
        · rw [if_neg hn1]
          have hn2 : strtab.get? sym.st_name = some '$' := by
            by_contra hc
            exact hq ⟨by omega, by omega, hc⟩
          rw [if_pos hn2]

/-- Helper: the spec optimum, when it exists, qualifies. -/
theorem pickSpec_qualifies (strtab : List Char) (base addr : Nat) :
    ∀ (l : List Sym) (t : Sym), pickSpec strtab base addr l = some t →
      qualifies strtab base addr t = true := by
  intro l
  induction l with
  | nil => intro t h; simp [pickSpec] at h
  | cons sym rest ih =>
    intro t h
    rw [pickSpec] at h
    by_cases hq : qualifies strtab base addr sym = true
    · rw [if_pos hq] at h
      cases hp : pickSpec strtab base addr rest with
      | none =>
        rw [hp, pickBetter] at h
        cases h
        exact hq
      | some u =>
        rw [hp, pickBetter] at h
        by_cases hg : symGap base addr u < symGap base addr sym
        · rw [if_pos hg] at h
          cases h
          exact ih _ hp
        · rw [if_neg hg] at h
          cases h
          exact hq
    · rw [if_neg (by simpa using hq)] at h
      exact ih t h

/-- Claim C9: getsym computes each symbol's comparison address as pc
when its recorded value exceeds the load base and pc minus the load
base otherwise (eddrOf), and returns the name of the earliest qualifying
symbol — value at most the comparison address, name offset inside the
string table, name not beginning with a dollar sign — with the smallest
gap (the zero-gap early break and the strict-improvement test make ties
go to the earliest entry), or null when none qualifies, exactly as
pickSpec specifies. -/
theorem tracy_C9 (dso : Dso) (base addr : Nat) :
    getsym dso base addr =
      (pickSpec dso.strtab base addr dso.symtab).map
        (fun sym => nameAt dso.strtab sym.st_name) := by
  unfold getsym
  rw [getsymLoop_none]
  cases hp : pickSpec dso.strtab base addr dso.symtab with
  | none => simp
  | some t =>
    have hq := pickSpec_qualifies dso.strtab base addr dso.symtab t hp
    rw [qualifies_true_iff] at hq
    simp [hq.2.1]

end Tracy
